import Mathlib

/-!
Verification development for the MashSong repository.

The numeric logic of the repository (src/mashsong/mashdata.py, with the older
generation in src/mashdata.py, and src/mashsong/masher.py) is embedded
shallowly:

* times, tempi and audio durations are rationals (`ℚ`);
* numpy arrays are `List ℚ`; `np.searchsorted(a, v, "left")` on a sorted array
  is the length of the prefix of elements `< v`;
* Python/numpy indexing `a[i]` with its negative-index wrap-around is `pyGet`,
  slices `a[0:i]` are `pySliceTo`, and `np.delete(a, np.s_[:i])` is
  `pyDeleteTo`; an out-of-range access is `none`;
* music21 `Key` objects are modelled with spelled tonic pitches (a letter
  step plus a chromatic alteration): `Key.transpose(n)` follows music21's
  letter arithmetic for the diatonic interval of `n` upward semitones,
  `Key.relative` takes scale degree 6 of a major key / degree 3 of a minor
  key, and the comparison `k.pitchFromDegree(1).ps == k2.pitchFromDegree(1).ps`
  used by the source compares `ps` values of octave-less pitches (implicit
  octave 4), which are sensitive to spelling: B sharp has ps 72 while C has
  ps 60 and C flat has ps 59 while B has 71, so for some key pairs the
  comparison fails at every transposition amount; the enharmonic projection
  `PcKey` (tonic pitch class plus mode) expresses the claims' notion of key
  equivalence;
* the unbounded `while(True)` loop of `find_closest_key_shift` becomes a
  bounded search returning an `Option` (`none` when the loop never exits,
  which is exhaustive because the exit condition is periodic in the
  transposition amount with period 12, `keyExitCond_rep`); a Python fragment
  that can run forever returns a `PyResult`, whose `hang` outcome propagates
  through callers like an exception but is distinct from every raised error;
* Python's float literals `.1`/`12.1` and `round` (banker's rounding) are
  modelled exactly over `ℚ` (`bankersRound`); at every value reached by the
  embedded code the rational and IEEE-754 results coincide, since all reached
  values are far from round-to-even ties;
* audio data (pydub `AudioSegment`, pedalboard chains, rubberband calls) is
  symbolic: `Seg` records which operations were applied; sample-format
  conversions (`convert_to_pedal`, the wav round-trip) are identities at this
  abstraction; file outputs are recorded as `FileWrite` values.
-/

/-! ## Python / numpy primitives -/

/-- Python sequence indexing `l[i]`: non-negative indices are positional,
negative indices wrap around once (`l[-1]` is the last element); anything out
of range raises, modelled as `none`. -/
def pyGet {α : Type} (l : List α) (i : ℤ) : Option α :=
  if 0 ≤ i then l[i.toNat]?
  else if 0 ≤ (l.length : ℤ) + i then l[((l.length : ℤ) + i).toNat]?
  else none

/-- Python slice `l[0:i]` (also numpy): a negative stop counts from the end,
clamping at 0. -/
def pySliceTo {α : Type} (l : List α) (i : ℤ) : List α :=
  if 0 ≤ i then l.take i.toNat else l.take ((l.length : ℤ) + i).toNat

/-- `np.delete(l, np.s_[:i])`: removes the slice `l[0:i]`, i.e. keeps the
matching suffix. -/
def pyDeleteTo {α : Type} (l : List α) (i : ℤ) : List α :=
  if 0 ≤ i then l.drop i.toNat else l.drop ((l.length : ℤ) + i).toNat

/-- `np.searchsorted(l, v, "left")` on a sorted array: the first index whose
element is `≥ v`, i.e. the length of the prefix of elements `< v`. -/
def searchsortedLeft (l : List ℚ) (v : ℚ) : ℕ :=
  match l with
  | [] => 0
  | x :: xs => if x < v then searchsortedLeft xs v + 1 else 0

/-- Python's built-in `round`: round half to even. -/
def bankersRound (q : ℚ) : ℤ :=
  let f := ⌊q⌋
  let r := q - (f : ℚ)
  if r < 1 / 2 then f
  else if 1 / 2 < r then f + 1
  else if Even f then f else f + 1

/-! ## Keys (music21 `Key` with spelled tonic pitches)

`mashdata.py` builds keys as `key.Key(__notes[key_no], mode)` with
`__notes = ['C','C#','D','D#','E','F','F#','G','G#','A','A#','B']` and
`mode ∈ {'minor', 'major'}`.  A music21 key carries a spelled, octave-less
tonic pitch: a letter step plus a chromatic alteration.  `pitchFromDegree(1).ps`
of such a key is the pitch space value with the implicit octave 4, which
depends on the spelling (B sharp is 72, C is 60, C flat is 59), and
`Key.transpose(n)` spells its result by music21's diatonic letter arithmetic,
so the spelled model is kept exactly; the enharmonic projection `PcKey` below
it expresses the claims' talk of equivalent keys. -/

inductive Mode
  | major
  | minor
deriving DecidableEq

instance : Fintype Mode :=
  ⟨⟨{Mode.major, Mode.minor}, by decide⟩, fun m => by cases m <;> decide⟩

/-- A spelled, octave-less pitch: letter step `0..6` (C, D, E, F, G, A, B)
plus chromatic alteration (sharps positive, flats negative). -/
structure SPitch where
  step : ℕ
  alter : ℤ
deriving DecidableEq

/-- Pitch class of an unaltered letter step (C, D, E, F, G, A, B). -/
def stepPC : ℕ → ℤ
  | 0 => 0
  | 1 => 2
  | 2 => 4
  | 3 => 5
  | 4 => 7
  | 5 => 9
  | _ => 11

/-- music21 `.ps` of an octave-less pitch: the implicit octave is 4, so the
value is `60 + letter pitch class + alteration` (B sharp: 72, C flat: 59). -/
def SPitch.ps (p : SPitch) : ℤ := 60 + stepPC p.step + p.alter

/-- music21's semitone-to-generic table: the diatonic letter size of the
interval of `r` upward semitones, `r < 12` (P1, m2, M2, m3, M3, P4, d5, P5,
m6, M6, m7, M7). -/
def gBase : ℕ → ℕ
  | 0 => 1
  | 1 => 2
  | 2 => 2
  | 3 => 3
  | 4 => 3
  | 5 => 4
  | 6 => 5
  | 7 => 5
  | 8 => 6
  | 9 => 6
  | 10 => 7
  | _ => 7

/-- Generic (letter) size of music21's `Interval(n)` for `n` upward
semitones: the table entry for `n % 12` plus seven letter steps per full
octave. -/
def genericOfSemis (n : ℕ) : ℕ := gBase (n % 12) + 7 * (n / 12)

/-- music21 `Pitch.transpose(Interval(n))` on an octave-less pitch: move
`genericOfSemis n - 1` letter steps (wrapping modulo 7) and choose the
alteration that makes the chromatic distance exactly `n` under that letter;
each wrap past B contributes an octave (12) that the alteration must not
absorb.  Transposing A sharp by 2 gives B sharp (ps 72), and F by 6 gives
C flat (ps 59). -/
def SPitch.transpose (p : SPitch) (n : ℕ) : SPitch :=
  let g := genericOfSemis n
  let s2 := (p.step + g - 1) % 7
  ⟨s2, p.alter + (n : ℤ) -
    (stepPC s2 - stepPC p.step + 12 * (((p.step + g - 1) / 7 : ℕ) : ℤ))⟩

/-- A music21 `Key`: spelled tonic plus mode. -/
structure SKey where
  tonic : SPitch
  mode : Mode
deriving DecidableEq

/-- `Key.transpose(n)` for a positive integer `n`: transpose the tonic, keep
the mode. -/
def SKey.transpose (k : SKey) (n : ℕ) : SKey :=
  ⟨k.tonic.transpose n, k.mode⟩

/-- `Key.relative`: the relative minor of a major key is its scale degree 6
(a major sixth, 9 semitones, up), the relative major of a minor key its
degree 3 (a minor third, 3 semitones, up); the spelling follows the same
letter arithmetic, so the relative minor of D sharp major has tonic
B sharp (ps 72). -/
def SKey.relative (k : SKey) : SKey :=
  match k.mode with
  | Mode.major => ⟨k.tonic.transpose 9, Mode.minor⟩
  | Mode.minor => ⟨k.tonic.transpose 3, Mode.major⟩

/-- The key `MashSong.__init__` (mashdata.py line 114) builds from the
Spotify key number: `key.Key(__notes[key_no], mode)`, where `__notes` holds
the naturals and sharps `C, C#, D, D#, E, F, F#, G, G#, A, A#, B`. -/
def spotifyKey (i : Fin 12) (m : Mode) : SKey :=
  ⟨match (i : ℕ) with
   | 0 => ⟨0, 0⟩
   | 1 => ⟨0, 1⟩
   | 2 => ⟨1, 0⟩
   | 3 => ⟨1, 1⟩
   | 4 => ⟨2, 0⟩
   | 5 => ⟨3, 0⟩
   | 6 => ⟨3, 1⟩
   | 7 => ⟨4, 0⟩
   | 8 => ⟨4, 1⟩
   | 9 => ⟨5, 0⟩
   | 10 => ⟨5, 1⟩
   | _ => ⟨6, 0⟩, m⟩

/-- Enharmonic view of a key: tonic pitch class (`ZMod 12`) plus mode.  The
claims speak of keys at this level. -/
structure PcKey where
  tonic : ZMod 12
  mode : Mode
deriving DecidableEq

instance : Fintype PcKey :=
  Fintype.ofEquiv (ZMod 12 × Mode)
    ⟨fun p => ⟨p.1, p.2⟩, fun k => (k.tonic, k.mode), fun _ => rfl, fun _ => rfl⟩

/-- Enharmonic projection of a spelled key. -/
def toPc (k : SKey) : PcKey := ⟨(k.tonic.ps : ZMod 12), k.mode⟩

/-- Enharmonic transposition: move the tonic pitch class by `n` semitones,
keep the mode. -/
def pcTranspose (k : PcKey) (n : ℤ) : PcKey :=
  ⟨k.tonic + (n : ZMod 12), k.mode⟩

/-- `Key.relative` at the enharmonic level: relative minor of a major key
(tonic + 9 semitones), relative major of a minor key (tonic + 3 semitones). -/
def PcKey.relative (k : PcKey) : PcKey :=
  match k.mode with
  | Mode.major => ⟨k.tonic + 9, Mode.minor⟩
  | Mode.minor => ⟨k.tonic + 3, Mode.major⟩

/-- `Key.parallel` at the enharmonic level: same tonic, opposite mode. -/
def PcKey.parallel (k : PcKey) : PcKey :=
  match k.mode with
  | Mode.major => ⟨k.tonic, Mode.minor⟩
  | Mode.minor => ⟨k.tonic, Mode.major⟩

/-- Exit condition of the `while(True)` loop of `find_closest_key_shift`
(mashdata.py lines 397-404): `new_key.pitchFromDegree(1).ps` equals the
target's (or the target's relative's) tonic `ps` and the modes agree.  The
`ps` comparison is spelling-sensitive: transposing A sharp major by 2
semitones gives B sharp major, whose tonic ps 72 never equals C's 60. -/
def keyExitCond (s t : SKey) (d : ℕ) : Bool :=
  let nk := s.transpose d
  decide ((nk.tonic.ps = t.tonic.ps ∧ nk.mode = t.mode) ∨
    (nk.tonic.ps = t.relative.tonic.ps ∧ nk.mode = t.relative.mode))

/-- The loop of `find_closest_key_shift`, searching `diff = 1, 2, 3, ...` for
the first value satisfying `keyExitCond`; `none` when no exit exists.  The
source loop is unbounded, and a fuel of 12 is exhaustive: `keyExitCond` is
periodic in `diff` with period 12 (`keyExitCond_rep` below), so if no
`diff ≤ 12` fires then no `diff` ever fires and the source loop runs
forever. -/
def findD0Go (s t : SKey) : ℕ → ℕ → Option ℕ
  | 0, _ => none
  | fuel + 1, d => if keyExitCond s t d then some d else findD0Go s t fuel (d + 1)

def findD0 (s t : SKey) : Option ℕ := findD0Go s t 12 1

/-- `find_closest_key_shift` (mashdata.py lines 392-413): run the loop, then
`diff = -12.1 + diff` if `diff > 6` else `diff - .1`, and return
`round(diff / 2)`; `none` models a loop that never exits (the call does not
return). -/
def find_closest_key_shift (s t : SKey) : Option ℤ :=
  match findD0 s t with
  | none => none
  | some d0 =>
    let adj : ℚ := if 6 < d0 then -121 / 10 + (d0 : ℚ) else (d0 : ℚ) - 1 / 10
    some (bankersRound (adj / 2))

/-- The alignment relation of claim C1 restricted to relative equivalence
(what the loop tests, read enharmonically): transposing `s` by `d` semitones
gives the target key or its relative. -/
def alignsRel (s t : PcKey) (d : ℤ) : Prop :=
  pcTranspose s d = t ∨ pcTranspose s d = t.relative

instance (s t : PcKey) (d : ℤ) : Decidable (alignsRel s t d) := by
  unfold alignsRel; infer_instance

/-- The full equivalence of claim C1's wording: target key, its relative, or
its parallel. -/
def claimKeyEquiv (k t : PcKey) : Prop :=
  k = t ∨ k = t.relative ∨ k = t.parallel

instance (k t : PcKey) : Decidable (claimKeyEquiv k t) := by
  unfold claimKeyEquiv; infer_instance

/-! ## BPM heuristics -/

/-- `find_closest_bpm` (mashdata.py lines 382-390). -/
def find_closest_bpm (selfBpm targetBpm : ℚ) : ℚ :=
  let diff := |targetBpm - selfBpm|
  if selfBpm < targetBpm then
    if |targetBpm - selfBpm * 2| < diff then selfBpm * 2 else selfBpm
  else
    if |targetBpm - selfBpm / 2| < diff then selfBpm / 2 else selfBpm

/-- The bpm branch of `create_mash_stem` (mashdata.py lines 212-215), taken
when no `bpm_ratio` is supplied: normalize the song's own bpm with
`find_closest_bpm`, set `mash_bpm` to the mean of that and the target bpm, and
stretch by `mash_bpm / self.bpm`.  Returns (updated own bpm, bpm ratio). -/
def mash_bpm_update (selfBpm targetBpm : ℚ) : ℚ × ℚ :=
  let nb := find_closest_bpm selfBpm targetBpm
  let mashBpm := (nb + targetBpm) / 2
  (nb, mashBpm / nb)

/-! ## Sections and measure synchronisation -/

/-- State of a `Section` object as far as `sync_to_measure` is concerned:
`start_time`, `duration`, `end_time` (seconds) and the `track_measures`
array assigned by `sync_sections_to_measures`. -/
structure SectionState where
  start_time : ℚ
  duration : ℚ
  end_time : ℚ
  track_measures : List ℚ
deriving DecidableEq

/-- `Section.sync_to_measure` of src/mashsong/mashdata.py (lines 64-84):
`end_ind = searchsorted(track_measures, end_time, "left") - 1`, decremented
when `end_ind >= len - 1`, then bumped to the next measure when that one is
strictly closer to `end_time`; `start_time` becomes `track_measures[0]`,
`end_time` becomes `track_measures[end_ind]`, `duration` their difference,
`track_measures` the slice `[0:end_ind]`, and `end_ind` is returned.
An out-of-range index access (Python `IndexError`) is `none`. -/
def syncToMeasure (s : SectionState) : Option (SectionState × ℤ) :=
  let m := s.track_measures
  let ei0 : ℤ := (searchsortedLeft m s.end_time : ℤ) - 1
  let ei1 : ℤ := if (m.length : ℤ) - 1 ≤ ei0 then ei0 - 1 else ei0
  match pyGet m ei1, pyGet m (ei1 + 1) with
  | some lo, some hi =>
      let ei2 : ℤ := if hi - s.end_time < s.end_time - lo then ei1 + 1 else ei1
      match pyGet m 0, pyGet m ei2 with
      | some st, some en =>
          some ({ start_time := st, duration := en - st, end_time := en,
                  track_measures := pySliceTo m ei2 }, ei2)
      | _, _ => none
  | _, _ => none

/-- `Section.sync_to_measure` of the older src/mashdata.py (lines 56-78):
same `searchsorted` starting point but with no bounds guard and no
closest-measure rounding step. -/
def syncToMeasureV1 (s : SectionState) : Option (SectionState × ℤ) :=
  let m := s.track_measures
  let ei : ℤ := (searchsortedLeft m s.end_time : ℤ) - 1
  match pyGet m 0, pyGet m ei with
  | some st, some en =>
      some ({ start_time := st, duration := en - st, end_time := en,
              track_measures := pySliceTo m ei }, ei)
  | _, _ => none

/-- `MashSong.sync_sections_to_measures` (mashdata.py lines 266-273): walk the
sections, assigning the remaining measure array to each, syncing it, and
dropping the first `end_ind` measures before the next one. -/
def syncSectionsGo : List ℚ → List SectionState → Option (List SectionState)
  | _, [] => some []
  | ms, s :: rest =>
    match syncToMeasure { s with track_measures := ms } with
    | none => none
    | some (s2, ei) =>
      match syncSectionsGo (pyDeleteTo ms ei) rest with
      | none => none
      | some out => some (s2 :: out)

/-! ## Bars to measures -/

/-- Record for one entry of the Spotify analysis `bars` list; only the
`'start'` field is read by the embedded code. -/
structure Bar where
  start : ℚ
deriving DecidableEq

/-- Python slice `l[::4]`: every fourth element, starting at index 0. -/
def everyFourth {α : Type} : List α → List α
  | [] => []
  | [a] => [a]
  | [a, _] => [a]
  | [a, _, _] => [a]
  | a :: _ :: _ :: _ :: rest => a :: everyFourth rest

/-- `bars_to_measures` (mashdata.py lines 338-344): the start times of
`bars[::4]` as a 1-D array. -/
def bars_to_measures (bars : List Bar) : List ℚ :=
  (everyFourth bars).map Bar.start

/-- The measures array built by `MashSong.__init__` (mashdata.py line 119):
`np.append(bars_to_measures(info['bars']), self.duration)`. -/
def songMeasures (bars : List Bar) (duration : ℚ) : List ℚ :=
  bars_to_measures bars ++ [duration]

/-! ## Audio segments, songs, `create_mash_stem` and `Masher.mash`

Audio data is symbolic: a `Seg` term records which pydub / rubberband /
pedalboard operations produced it.  `Seg.dur` models pydub's
`duration_seconds`: slicing `[a:b]` (milliseconds) gives `(b - a)/1000`
seconds, a rubberband `--tempo r` stretch divides the duration by `r`, effect
boards keep it, and `x.overlay(y)` keeps the caller `x`'s duration. -/

inductive Seg
  | raw (title stemType : String) (dur : ℚ)
  | slice (s : Seg) (startMs stopMs : ℚ)
  | rubber (s : Seg) (tempo : ℚ) (pitch : ℤ)
  | vocalBoard (s : Seg)
  | accBoard (s : Seg)
  | overlay (a b : Seg)
  | mashBoard (s : Seg)
deriving DecidableEq

def Seg.dur : Seg → ℚ
  | raw _ _ d => d
  | slice _ a b => (b - a) / 1000
  | rubber s t _ => s.dur / t
  | vocalBoard s => s.dur
  | accBoard s => s.dur
  | overlay a _ => a.dur
  | mashBoard s => s.dur

/-- One exported audio file: directory, file name, audio content. -/
structure FileWrite where
  dir : String
  name : String
  seg : Seg
deriving DecidableEq

/-- Python exceptions distinguished by the embedded code: `KeyError` (caught
and re-raised with a message by `create_mash_stem`), `IndexError` (out-of-range
list index), `AttributeError` (attribute of `None`, e.g. `target_song.key`
when no target song was passed). -/
inductive PyError
  | keyError (msg : String)
  | indexError
  | attributeError
deriving DecidableEq

/-- Outcome of running an embedded Python fragment: a normal return, a raised
exception, or non-termination (`hang`, entered when the key-shift loop never
exits).  A hang is not an exception: no handler can observe it, and it
propagates through every caller. -/
inductive PyResult (α : Type)
  | ok (val : α)
  | raise (err : PyError)
  | hang
deriving DecidableEq

/-- State of a `MashSong` object used by `create_mash_stem` and
`Masher.mash`. -/
structure Song where
  title : String
  key : SKey
  bpm : ℚ
  sections : List SectionState
  stems : List (String × Seg)
deriving DecidableEq

/-- Python dict assignment `d[k] = v`: overwrite in place if the key exists,
otherwise append (insertion order preserved). -/
def dictInsert (l : List (String × Seg)) (k : String) (v : Seg) : List (String × Seg) :=
  if (l.lookup k).isSome then l.map (fun p => if p.1 = k then (k, v) else p)
  else l ++ [(k, v)]

/-- Pedalboard chain applied by `create_mash_stem` (mashdata.py lines
226-239): one chain for `"Vocals"`, another for everything else. -/
def boardFor (srcStemType : String) (s : Seg) : Seg :=
  if srcStemType = "Vocals" then Seg.vocalBoard s else Seg.accBoard s

/-- The `shift_amt` branch of `create_mash_stem` (mashdata.py lines 209-211):
Python's `if not shift_amt` treats `None` and `0` alike as absent, and then
`shift_amt = find_closest_key_shift(self, target_song)` recomputes it.  A
missing `target_song` is an `AttributeError` inside `find_closest_key_shift`;
a key pair on which the loop never exits is a hang. -/
def computeShift (selfKey : SKey) (shiftAmt : Option ℤ) (targetSong : Option Song) :
    PyResult ℤ :=
  match shiftAmt with
  | some v =>
      if v = 0 then
        match targetSong with
        | some t =>
            match find_closest_key_shift selfKey t.key with
            | some sh => .ok sh
            | none => .hang
        | none => .raise .attributeError
      else .ok v
  | none =>
      match targetSong with
      | some t =>
          match find_closest_key_shift selfKey t.key with
          | some sh => .ok sh
          | none => .hang
      | none => .raise .attributeError

/-- `MashSong.create_mash_stem` (mashdata.py lines 181-248).  Arguments
`shift_amt` / `bpm_ratio` / `target_song` are optional; Python's
`if not shift_amt` / `if not bpm_ratio` treat `None` and `0` alike as absent.
The try block reads `sections[start_sec]`, `sections[end_sec]`, then
`stems[src_stem_type]`; a failed stem lookup becomes the re-raised `KeyError`;
a failed section index is an uncaught `IndexError`.  On the recompute paths a
missing `target_song` is an `AttributeError`, and a key pair whose loop never
exits hangs the call.  On success the song's `bpm` is updated (when the bpm
branch ran), the new stem is stored under `new_stem_name`, and the stem is
also exported to `data/music/test`. -/
def createMashStem (song : Song) (newStemName srcStemType : String)
    (startSec endSec : ℤ) (shiftAmt : Option ℤ) (bpmRatio : Option ℚ)
    (targetSong : Option Song) :
    PyResult (Song × Seg × List FileWrite) :=
  match pyGet song.sections startSec, pyGet song.sections endSec with
  | some sec1, some sec2 =>
    match song.stems.lookup srcStemType with
    | none =>
        .raise (.keyError ("No stem type of " ++ srcStemType ++
          " found in stems for " ++ song.title))
    | some stem =>
        let stemSeg := Seg.slice stem (sec1.start_time * 1000) (sec2.end_time * 1000)
        match computeShift song.key shiftAmt targetSong with
        | .raise e => .raise e
        | .hang => .hang
        | .ok shift =>
          match (match bpmRatio with
                 | some r => if r = 0 then none else some r
                 | none => none) with
          | some r =>
              let fx := boardFor srcStemType (Seg.rubber stemSeg r shift)
              .ok ({ song with stems := dictInsert song.stems newStemName fx }, fx,
                   [⟨"data/music/test", song.title ++ "editR3.wav", fx⟩])
          | none =>
              match targetSong with
              | none => .raise .attributeError
              | some t =>
                  let nb := find_closest_bpm song.bpm t.bpm
                  let r := ((nb + t.bpm) / 2) / nb
                  let fx := boardFor srcStemType (Seg.rubber stemSeg r shift)
                  .ok ({ song with bpm := nb, stems := dictInsert song.stems newStemName fx },
                       fx, [⟨"data/music/test", song.title ++ "editR3.wav", fx⟩])
  | _, _ => .raise .indexError

/-- `Masher.mash` (masher.py lines 124-155): build the two mash stems (the
first call mutates `voc`, and the mutated object is the `target_song` of the
second call), overlay the shorter onto the longer, apply the
compressor/reverb board, and write one file to `data/music/mash/<output>`.
The returned list collects every file written, in order; an exception or a
hang in either `create_mash_stem` call propagates and nothing later runs. -/
def masherMash (output : String) (voc acc : Song) (vocSecs accSecs : ℤ × ℤ) :
    PyResult (List FileWrite) :=
  match createMashStem voc "VocMash" "Vocals" vocSecs.1 vocSecs.2 none none (some acc) with
  | .raise e => .raise e
  | .hang => .hang
  | .ok (voc2, vocStem, w1) =>
    match createMashStem acc "AccMash" "Accompaniment" accSecs.1 accSecs.2
        none none (some voc2) with
    | .raise e => .raise e
    | .hang => .hang
    | .ok (_, accStem, w2) =>
        let mash := if accStem.dur < vocStem.dur then Seg.overlay accStem vocStem
                    else Seg.overlay vocStem accStem
        .ok (w1 ++ w2 ++ [⟨"data/music/mash", output, Seg.mashBoard mash⟩])

/-- Integer value of `find_closest_key_shift` as a function of the loop
result `d0`: the signed minimal representative (window `-5..6`) of `d0`
mod 12, floor-divided by 2.  `find_closest_key_shift_table` proves the
rational rounding in the source computes exactly this. -/
def keyShiftTable (d0 : ℕ) : ℤ :=
  Int.fdiv (if 6 < d0 then (d0 : ℤ) - 12 else (d0 : ℤ)) 2

def demoSection : SectionState := ⟨0, 10, 10, []⟩

def demoStem : Seg := Seg.raw "SongA" "Vocals" 180

def demoSong : Song :=
  ⟨"SongA", spotifyKey 0 Mode.major, 100, [demoSection], [("Vocals", demoStem)]⟩

def demoTarget : Song :=
  ⟨"SongB", spotifyKey 2 Mode.major, 120, [demoSection],
    [("Accompaniment", Seg.raw "SongB" "Accompaniment" 200)]⟩

/-- A vocal song in A sharp major: against a C major target, every
transposition with the right pitch class is spelled B sharp (ps 72, not C's
60), so the key-shift loop never exits. -/
def wrapVoc : Song :=
  ⟨"WrapVoc", spotifyKey 10 Mode.major, 100, [demoSection],
    [("Vocals", Seg.raw "WrapVoc" "Vocals" 180)]⟩

def wrapAcc : Song :=
  ⟨"WrapAcc", spotifyKey 0 Mode.major, 120, [demoSection],
    [("Accompaniment", Seg.raw "WrapAcc" "Accompaniment" 200)]⟩

/-! ## Helper lemmas -/

theorem relative_mode_ne (t : PcKey) : t.relative.mode ≠ t.mode := by
  obtain ⟨tt, tm⟩ := t; cases tm <;> simp [PcKey.relative]

theorem pcTranspose_mode (s : PcKey) (d : ℤ) : (pcTranspose s d).mode = s.mode := rfl

theorem alignsRel_sub_dvd {s t : PcKey} {d e : ℤ}
    (hd : alignsRel s t d) (he : alignsRel s t e) : (12 : ℤ) ∣ (e - d) := by
  have key : (pcTranspose s d).tonic = (pcTranspose s e).tonic := by
    rcases hd with hd | hd <;> rcases he with he | he
    · rw [hd, he]
    · exfalso
      have h1 : (pcTranspose s d).mode = t.mode := by rw [hd]
      have h2 : (pcTranspose s e).mode = t.relative.mode := by rw [he]
      rw [pcTranspose_mode] at h1 h2
      exact relative_mode_ne t (h2 ▸ h1 ▸ rfl)
    · exfalso
      have h1 : (pcTranspose s d).mode = t.relative.mode := by rw [hd]
      have h2 : (pcTranspose s e).mode = t.mode := by rw [he]
      rw [pcTranspose_mode] at h1 h2
      exact relative_mode_ne t (h1 ▸ h2 ▸ rfl)
    · rw [hd, he]
  have hz : ((d : ZMod 12)) = ((e : ZMod 12)) := by
    simpa [pcTranspose] using key
  exact ((ZMod.intCast_eq_intCast_iff d e 12).mp hz).dvd

theorem gBase_pos (r : ℕ) : 1 ≤ gBase r := by
  unfold gBase
  split <;> omega

theorem genericOfSemis_pos (n : ℕ) : 1 ≤ genericOfSemis n :=
  le_trans (gBase_pos (n % 12)) (Nat.le_add_right _ _)

theorem genericOfSemis_add_twelve (n : ℕ) :
    genericOfSemis (n + 12) = genericOfSemis n + 7 := by
  unfold genericOfSemis
  rw [Nat.add_mod_right, Nat.add_div_right _ (by norm_num)]
  ring

/-- The spelled transposition is periodic in the semitone count with period
12: adding an octave moves one more letter cycle and twelve more chromatic
steps, which cancel. -/
theorem sPitch_transpose_add_twelve (p : SPitch) (n : ℕ) :
    p.transpose (n + 12) = p.transpose n := by
  have hpos := genericOfSemis_pos n
  unfold SPitch.transpose
  rw [genericOfSemis_add_twelve]
  simp only []
  have hstep : p.step + (genericOfSemis n + 7) - 1 = p.step + genericOfSemis n - 1 + 7 := by
    omega
  rw [hstep, Nat.add_mod_right, Nat.add_div_right _ (by norm_num)]
  simp only [SPitch.mk.injEq]
  refine ⟨trivial, ?_⟩
  push_cast
  ring

theorem keyExitCond_add_twelve (s t : SKey) (d : ℕ) :
    keyExitCond s t (d + 12) = keyExitCond s t d := by
  unfold keyExitCond SKey.transpose
  simp only []
  rw [sPitch_transpose_add_twelve]

/-- The exit condition of the key-shift loop only depends on the
transposition amount modulo 12 (through its representative in `1..12`). -/
theorem keyExitCond_rep (s t : SKey) : ∀ d : ℕ, 1 ≤ d →
    keyExitCond s t d = keyExitCond s t ((d - 1) % 12 + 1) := by
  intro d
  induction d using Nat.strong_induction_on with
  | _ d ih =>
    intro hd
    rcases le_or_lt d 12 with h12 | h12
    · rw [show (d - 1) % 12 + 1 = d by omega]
    · have he : keyExitCond s t d = keyExitCond s t (d - 12) := by
        have h := keyExitCond_add_twelve s t (d - 12)
        rw [show d - 12 + 12 = d by omega] at h
        exact h
      rw [he, ih (d - 12) (by omega) (by omega),
        show (d - 12 - 1) % 12 + 1 = (d - 1) % 12 + 1 by omega]

theorem findD0Go_some_bounds (s t : SKey) :
    ∀ fuel d r : ℕ, findD0Go s t fuel d = some r → d ≤ r ∧ r < d + fuel := by
  intro fuel
  induction fuel with
  | zero =>
    intro d r h
    simp [findD0Go] at h
  | succ n ih =>
    intro d r h
    simp only [findD0Go] at h
    split_ifs at h with hc
    · obtain rfl := Option.some_inj.mp h
      omega
    · have := ih (d + 1) r h
      omega

theorem findD0_some_bounds (s t : SKey) (d0 : ℕ) (h : findD0 s t = some d0) :
    1 ≤ d0 ∧ d0 ≤ 12 := by
  have := findD0Go_some_bounds s t 12 1 d0 h
  omega

theorem findD0Go_none_no_exit (s t : SKey) :
    ∀ fuel d : ℕ, findD0Go s t fuel d = none →
      ∀ k, d ≤ k → k < d + fuel → keyExitCond s t k = false := by
  intro fuel
  induction fuel with
  | zero =>
    intro d _ k h1 h2
    exact absurd h2 (by omega)
  | succ n ih =>
    intro d h k h1 h2
    simp only [findD0Go] at h
    split_ifs at h with hc
    rcases Nat.eq_or_lt_of_le h1 with rfl | hlt
    · simpa using hc
    · exact ih (d + 1) h k (by omega) (by omega)

/-- When the bounded search fails, the source loop really diverges: by
periodicity no transposition amount at all meets the exit condition. -/
theorem findD0_none_no_exit (s t : SKey) (h : findD0 s t = none) :
    ∀ d : ℕ, 1 ≤ d → keyExitCond s t d = false := by
  intro d hd
  rw [keyExitCond_rep s t d hd]
  exact findD0Go_none_no_exit s t 12 1 h ((d - 1) % 12 + 1) (by omega) (by omega)

theorem find_closest_key_shift_table (s t : SKey) :
    find_closest_key_shift s t = (findD0 s t).map keyShiftTable := by
  rcases h : findD0 s t with _ | d0
  · unfold find_closest_key_shift
    rw [h]
    rfl
  · obtain ⟨h1, h2⟩ := findD0_some_bounds s t d0 h
    unfold find_closest_key_shift
    rw [h]
    simp only [Option.map]
    set n := d0 with hn
    interval_cases n <;> norm_num [bankersRound, keyShiftTable] <;> decide

theorem keyShiftTable_aligns : ∀ (i : Fin 12) (mi : Mode) (j : Fin 12) (mj : Mode),
    ∀ d0 ∈ (findD0 (spotifyKey i mi) (spotifyKey j mj)).toList,
      ∃ r : Fin 12,
        alignsRel (toPc (spotifyKey i mi)) (toPc (spotifyKey j mj)) ((r : ℤ) - 5) ∧
        keyShiftTable d0 = Int.fdiv ((r : ℤ) - 5) 2 := by decide

/-- Claim C5 (counterexample): for A sharp major against C major, the loop of
`find_closest_key_shift` never meets its exit condition: every transposition
of A sharp with tonic pitch class 0 is spelled B sharp, whose ps 72 never
equals C's 60, and the relative branch cannot fire since transposition
preserves mode.  The bounded search returns `none`, and no positive
transposition amount at all passes the test, so the source's `while(True)`
loop runs forever. -/
theorem key_shift_loop_wrap_pair_diverges :
    findD0 (spotifyKey 10 Mode.major) (spotifyKey 0 Mode.major) = none ∧
    ∀ d : ℕ, 1 ≤ d →
      keyExitCond (spotifyKey 10 Mode.major) (spotifyKey 0 Mode.major) d = false :=
  ⟨by decide, findD0_none_no_exit _ _ (by decide)⟩

/-- Claim C5 (amended): the loop either meets its exit condition within 12
semitones or never meets it at all (its exit test is periodic with period
12); the second case is reached by constructible keys, e.g. A sharp major
against C major, so the loop does not terminate for every pair. -/
theorem key_shift_loop_exit_or_diverges (s t : SKey) :
    (∃ d ∈ Finset.Icc 1 12, keyExitCond s t d = true) ∨
    (∀ d : ℕ, 1 ≤ d → keyExitCond s t d = false) := by
  by_cases h : ∃ d ∈ Finset.Icc 1 12, keyExitCond s t d = true
  · exact Or.inl h
  · right
    intro d hd
    rw [keyExitCond_rep s t d hd]
    push_neg at h
    have hmem : (d - 1) % 12 + 1 ∈ Finset.Icc 1 12 := by
      simp only [Finset.mem_Icc]
      omega
    simpa using h _ hmem

/-- Claim C1 (counterexample): for C major against D major the function
returns 1, but transposing C major by 1 semitone does not give a key
enharmonically equivalent to D major (neither equal, relative nor parallel),
while the shift 2 does; so the returned value is not the minimal aligning
shift. -/
theorem find_closest_key_shift_c_major_d_major :
    find_closest_key_shift (spotifyKey 0 Mode.major) (spotifyKey 2 Mode.major) = some 1 ∧
    ¬ claimKeyEquiv (toPc ((spotifyKey 0 Mode.major).transpose 1))
        (toPc (spotifyKey 2 Mode.major)) ∧
    claimKeyEquiv (toPc ((spotifyKey 0 Mode.major).transpose 2))
        (toPc (spotifyKey 2 Mode.major)) := by
  refine ⟨?_, by decide, by decide⟩
  rw [find_closest_key_shift_table]
  decide

/-- Claim C1 (amended): when `find_closest_key_shift` returns at all, the
returned value is the floor of half the signed semitone shift `d` of minimal
absolute value (tie at 6 resolved to `+6`) that enharmonically transposes
`self`'s key onto `target`'s key or its relative key (parallel equivalence is
not consulted); on the enharmonic wrap pairs the loop never exits and the
call does not return. -/
theorem find_closest_key_shift_halves_relative_shift (i : Fin 12) (mi : Mode)
    (j : Fin 12) (mj : Mode) (res : ℤ)
    (h : find_closest_key_shift (spotifyKey i mi) (spotifyKey j mj) = some res) :
    ∃ d : ℤ, alignsRel (toPc (spotifyKey i mi)) (toPc (spotifyKey j mj)) d ∧
      (∀ e : ℤ, alignsRel (toPc (spotifyKey i mi)) (toPc (spotifyKey j mj)) e →
        d.natAbs ≤ e.natAbs) ∧
      res = Int.fdiv d 2 := by
  rw [find_closest_key_shift_table] at h
  rcases hd : findD0 (spotifyKey i mi) (spotifyKey j mj) with _ | d0
  · rw [hd] at h
    exact absurd h (by simp)
  · rw [hd] at h
    simp only [Option.map, Option.some_inj] at h
    obtain ⟨r, hr, ht⟩ := keyShiftTable_aligns i mi j mj d0 (by rw [hd]; simp)
    refine ⟨(r : ℤ) - 5, hr, ?_, ?_⟩
    · intro e he
      obtain ⟨k, hk⟩ := alignsRel_sub_dvd hr he
      have hlt := r.isLt
      omega
    · rw [← h]
      exact ht

theorem find_closest_key_shift_halves_witness :
    ∃ d : ℤ, alignsRel (toPc (spotifyKey 0 Mode.major)) (toPc (spotifyKey 2 Mode.major)) d ∧
      (∀ e : ℤ, alignsRel (toPc (spotifyKey 0 Mode.major)) (toPc (spotifyKey 2 Mode.major)) e →
        d.natAbs ≤ e.natAbs) ∧
      (1 : ℤ) = Int.fdiv d 2 :=
  find_closest_key_shift_halves_relative_shift 0 Mode.major 2 Mode.major 1
    (by rw [find_closest_key_shift_table]; decide)

/-- Claim C3: `find_closest_bpm` picks from `{s, 2s, s/2}` the value closest
to the target, keeping `s` on ties. -/
theorem find_closest_bpm_spec (s t : ℚ) (hs : 0 < s) (ht : 0 < t) :
    (find_closest_bpm s t = s ∨ find_closest_bpm s t = s * 2 ∨
      find_closest_bpm s t = s / 2) ∧
    |find_closest_bpm s t - t| ≤ |s - t| ∧
    |find_closest_bpm s t - t| ≤ |s * 2 - t| ∧
    |find_closest_bpm s t - t| ≤ |s / 2 - t| ∧
    ((|s - t| ≤ |s * 2 - t| ∧ |s - t| ≤ |s / 2 - t|) → find_closest_bpm s t = s) := by
  unfold find_closest_bpm
  simp only []
  split_ifs with h1 h2 h2
  · -- s < t, doubling strictly closer
    rw [abs_sub_comm t s, abs_sub_comm t (s * 2)] at h2
    have e1 : |s - t| = t - s := by rw [abs_sub_comm]; exact abs_of_nonneg (by linarith)
    have e2 : |s / 2 - t| = t - s / 2 := by rw [abs_sub_comm]; exact abs_of_nonneg (by linarith)
    refine ⟨Or.inr (Or.inl rfl), by linarith, le_refl _, by rw [e2]; linarith [e1 ▸ h2], ?_⟩
    intro h; linarith [h.1]
  · -- s < t, keep s
    rw [abs_sub_comm t s, abs_sub_comm t (s * 2)] at h2
    push_neg at h2
    have e1 : |s - t| = t - s := by rw [abs_sub_comm]; exact abs_of_nonneg (by linarith)
    have e2 : |s / 2 - t| = t - s / 2 := by rw [abs_sub_comm]; exact abs_of_nonneg (by linarith)
    exact ⟨Or.inl rfl, le_refl _, h2, by rw [e1, e2]; linarith, fun _ => rfl⟩
  · -- t ≤ s, halving strictly closer
    rw [abs_sub_comm t s, abs_sub_comm t (s / 2)] at h2
    push_neg at h1
    have e1 : |s - t| = s - t := abs_of_nonneg (by linarith)
    have e2 : |s * 2 - t| = s * 2 - t := abs_of_nonneg (by linarith)
    refine ⟨Or.inr (Or.inr rfl), by linarith, by rw [e2]; linarith [e1 ▸ h2], le_refl _, ?_⟩
    intro h; linarith [h.2]
  · -- t ≤ s, keep s
    rw [abs_sub_comm t s, abs_sub_comm t (s / 2)] at h2
    push_neg at h1 h2
    have e1 : |s - t| = s - t := abs_of_nonneg (by linarith)
    have e2 : |s * 2 - t| = s * 2 - t := abs_of_nonneg (by linarith)
    exact ⟨Or.inl rfl, le_refl _, by rw [e1, e2]; linarith, h2, fun _ => rfl⟩

theorem find_closest_bpm_spec_witness :
    (find_closest_bpm 100 120 = 100 ∨ find_closest_bpm 100 120 = 100 * 2 ∨
      find_closest_bpm 100 120 = 100 / 2) ∧
    |find_closest_bpm 100 120 - 120| ≤ |(100 : ℚ) - 120| ∧
    |find_closest_bpm 100 120 - 120| ≤ |(100 : ℚ) * 2 - 120| ∧
    |find_closest_bpm 100 120 - 120| ≤ |(100 : ℚ) / 2 - 120| ∧
    ((|(100 : ℚ) - 120| ≤ |(100 : ℚ) * 2 - 120| ∧ |(100 : ℚ) - 120| ≤ |(100 : ℚ) / 2 - 120|) →
      find_closest_bpm 100 120 = 100) :=
  find_closest_bpm_spec 100 120 (by norm_num) (by norm_num)

theorem find_closest_bpm_pos {s t : ℚ} (hs : 0 < s) (ht : 0 < t) :
    0 < find_closest_bpm s t := by
  unfold find_closest_bpm
  simp only []
  split_ifs <;> linarith

/-- Raising `KeyError` is not among the outcomes of the shift recompute: it
returns, raises `AttributeError`, or hangs. -/
theorem computeShift_no_keyError (k : SKey) (sa : Option ℤ) (ts : Option Song) :
    ∀ msg, computeShift k sa ts ≠ PyResult.raise (PyError.keyError msg) := by
  intro msg
  unfold computeShift
  rcases sa with _ | v <;> rcases ts with _ | t <;> simp only []
  · simp
  · rcases h : find_closest_key_shift k t.key with _ | sh <;> simp [h]
  · split_ifs <;> simp
  · split_ifs
    · rcases h : find_closest_key_shift k t.key with _ | sh <;> simp [h]
    · simp

/-- Shape of a successful `create_mash_stem` call with a target song and no
explicit `shift_amt` / `bpm_ratio` (the form `Masher.mash` uses), given that
the key-shift loop terminates on this pair of keys. -/
theorem createMashStem_target_ok (song tgt : Song) (nn st : String) (i j : ℤ)
    (s1 s2 : SectionState) (stem : Seg) (sh : ℤ)
    (h1 : pyGet song.sections i = some s1) (h2 : pyGet song.sections j = some s2)
    (h3 : song.stems.lookup st = some stem)
    (hks : find_closest_key_shift song.key tgt.key = some sh) :
    createMashStem song nn st i j none none (some tgt) =
      .ok ({ song with
               bpm := (mash_bpm_update song.bpm tgt.bpm).1,
               stems := dictInsert song.stems nn (boardFor st (Seg.rubber
                 (Seg.slice stem (s1.start_time * 1000) (s2.end_time * 1000))
                 (mash_bpm_update song.bpm tgt.bpm).2 sh)) },
           boardFor st (Seg.rubber
             (Seg.slice stem (s1.start_time * 1000) (s2.end_time * 1000))
             (mash_bpm_update song.bpm tgt.bpm).2 sh),
           [⟨"data/music/test", song.title ++ "editR3.wav",
             boardFor st (Seg.rubber
               (Seg.slice stem (s1.start_time * 1000) (s2.end_time * 1000))
               (mash_bpm_update song.bpm tgt.bpm).2 sh)⟩]) := by
  unfold createMashStem computeShift
  rw [h1, h2, h3]
  simp only []
  rw [hks]
  rfl

/-- Claim C4 (counterexample): with own bpm 100 and target bpm 120 the bpm
branch of `create_mash_stem` computes ratio 11/10, not 120/100. -/
theorem mash_bpm_ratio_counterexample :
    (mash_bpm_update 100 120).2 = 11 / 10 ∧ ((11 : ℚ) / 10) ≠ 120 / 100 := by
  constructor
  · norm_num [mash_bpm_update, find_closest_bpm]
  · norm_num

/-- Claim C4 (amended): when the key-shift loop terminates, the applied tempo
ratio is midpoint-based: the updated own bpm times the ratio is the mean of
the normalized own bpm and the target's bpm, not the target tempo. -/
theorem create_mash_stem_ratio_midpoint (song tgt : Song) (nn st : String) (i j : ℤ)
    (s1 s2 : SectionState) (stem : Seg) (sh : ℤ)
    (h1 : pyGet song.sections i = some s1) (h2 : pyGet song.sections j = some s2)
    (h3 : song.stems.lookup st = some stem)
    (hks : find_closest_key_shift song.key tgt.key = some sh)
    (hbs : 0 < song.bpm) (hbt : 0 < tgt.bpm) :
    ∃ song2 w, createMashStem song nn st i j none none (some tgt) =
        .ok (song2, boardFor st (Seg.rubber
          (Seg.slice stem (s1.start_time * 1000) (s2.end_time * 1000))
          (mash_bpm_update song.bpm tgt.bpm).2 sh), w) ∧
      song2.bpm = find_closest_bpm song.bpm tgt.bpm ∧
      song2.bpm * (mash_bpm_update song.bpm tgt.bpm).2 = (song2.bpm + tgt.bpm) / 2 := by
  refine ⟨_, _, createMashStem_target_ok song tgt nn st i j s1 s2 stem sh h1 h2 h3 hks, ?_, ?_⟩
  · rfl
  have hnb : (0 : ℚ) < find_closest_bpm song.bpm tgt.bpm := find_closest_bpm_pos hbs hbt
  show find_closest_bpm song.bpm tgt.bpm *
      ((find_closest_bpm song.bpm tgt.bpm + tgt.bpm) / 2 / find_closest_bpm song.bpm tgt.bpm) =
      (find_closest_bpm song.bpm tgt.bpm + tgt.bpm) / 2
  rw [mul_div_cancel₀ _ (ne_of_gt hnb)]

/-- Claim C9: with valid section indices, `create_mash_stem` raises `KeyError`
exactly when the stem type is missing (every other outcome is a success, an
`AttributeError`, or a hang), with the exact message, and the new stem is
stored only on the success path. -/
theorem create_mash_stem_keyerror_iff (song : Song) (nn st : String) (i j : ℤ)
    (shiftAmt : Option ℤ) (bpmRatio : Option ℚ) (targetSong : Option Song)
    (h1 : (pyGet song.sections i).isSome) (h2 : (pyGet song.sections j).isSome) :
    ((∃ msg, createMashStem song nn st i j shiftAmt bpmRatio targetSong =
        .raise (.keyError msg)) ↔ song.stems.lookup st = none) ∧
    (∀ msg, createMashStem song nn st i j shiftAmt bpmRatio targetSong =
        .raise (.keyError msg) →
      msg = "No stem type of " ++ st ++ " found in stems for " ++ song.title) ∧
    (∀ song2 seg w, createMashStem song nn st i j shiftAmt bpmRatio targetSong =
        .ok (song2, seg, w) → song2.stems = dictInsert song.stems nn seg) := by
  obtain ⟨s1, hs1⟩ := Option.isSome_iff_exists.mp h1
  obtain ⟨s2, hs2⟩ := Option.isSome_iff_exists.mp h2
  rcases hlk : song.stems.lookup st with _ | stem
  · unfold createMashStem
    rw [hs1, hs2, hlk]
    refine ⟨⟨fun _ => rfl, fun _ => ⟨_, rfl⟩⟩, ?_, ?_⟩
    · intro msg hmsg
      simp only [PyResult.raise.injEq, PyError.keyError.injEq] at hmsg
      exact hmsg.symm
    · intro song2 seg w h
      exact absurd h (by simp)
  · unfold createMashStem
    rw [hs1, hs2, hlk]
    rcases hcs : computeShift song.key shiftAmt targetSong with sh | e | _
    · rcases bpmRatio with _ | r <;> rcases targetSong with _ | t <;>
        simp only [] <;> (try split_ifs) <;>
        refine ⟨⟨?_, ?_⟩, ?_, ?_⟩ <;>
          first
            | (rintro ⟨msg, hmsg⟩; simp at hmsg)
            | (intro hn; simp at hn)
            | (intro msg hmsg; simp at hmsg)
            | (intro song2 seg w h
               simp only [PyResult.ok.injEq, Prod.mk.injEq] at h
               obtain ⟨hsong, hseg, -⟩ := h
               subst hseg
               rw [hsong.symm])
            | (intro song2 seg w h; simp at h)
    · refine ⟨⟨?_, ?_⟩, ?_, ?_⟩
      · rintro ⟨msg, hmsg⟩
        simp at hmsg
        exact absurd (hmsg ▸ hcs)
          (computeShift_no_keyError song.key shiftAmt targetSong msg)
      · intro hn
        simp at hn
      · intro msg hmsg
        simp at hmsg
        exact absurd (hmsg ▸ hcs)
          (computeShift_no_keyError song.key shiftAmt targetSong msg)
      · intro song2 seg w h
        simp at h
    · refine ⟨⟨?_, ?_⟩, ?_, ?_⟩
      · rintro ⟨msg, hmsg⟩
        simp at hmsg
      · intro hn
        simp at hn
      · intro msg hmsg
        simp at hmsg
      · intro song2 seg w h
        simp at h


/-- Claim C7 (counterexample): a vocal song in A sharp major against an
accompaniment in C major, both holding the required stems and a valid
section: the first `create_mash_stem` call never returns (the key-shift loop
diverges on this pair), so `Masher.mash` hangs and exports nothing at all. -/
theorem masher_mash_wrap_pair_no_export :
    (pyGet wrapVoc.sections 0).isSome ∧
    (pyGet wrapAcc.sections 0).isSome ∧
    (wrapVoc.stems.lookup "Vocals").isSome ∧
    (wrapAcc.stems.lookup "Accompaniment").isSome ∧
    masherMash "Mash.wav" wrapVoc wrapAcc (0, 0) (0, 0) = PyResult.hang ∧
    ∀ w, masherMash "Mash.wav" wrapVoc wrapAcc (0, 0) (0, 0) ≠ PyResult.ok w := by
  have heq : masherMash "Mash.wav" wrapVoc wrapAcc (0, 0) (0, 0) = PyResult.hang := by
    decide
  refine ⟨rfl, rfl, rfl, rfl, heq, ?_⟩
  intro w h
  rw [heq] at h
  exact absurd h (by simp)

/-- Claim C7 (amended): provided the key-shift loop terminates in both
directions (it need not: enharmonic wrap pairs hang before anything is
written), `Masher.mash` exports exactly one file into `data/music/mash`,
named `output`, whose content is the effected overlay of the two mash
stems. -/
theorem masher_mash_single_export (output : String) (voc acc : Song) (vs as2 : ℤ × ℤ)
    (hv1 : (pyGet voc.sections vs.1).isSome) (hv2 : (pyGet voc.sections vs.2).isSome)
    (ha1 : (pyGet acc.sections as2.1).isSome) (ha2 : (pyGet acc.sections as2.2).isSome)
    (hvs : (voc.stems.lookup "Vocals").isSome)
    (has : (acc.stems.lookup "Accompaniment").isSome)
    (hkv : (find_closest_key_shift voc.key acc.key).isSome)
    (hka : (find_closest_key_shift acc.key voc.key).isSome) :
    ∃ voc2 acc2 vocStem accStem w1 w2 w,
      createMashStem voc "VocMash" "Vocals" vs.1 vs.2 none none (some acc) =
        .ok (voc2, vocStem, w1) ∧
      createMashStem acc "AccMash" "Accompaniment" as2.1 as2.2 none none (some voc2) =
        .ok (acc2, accStem, w2) ∧
      masherMash output voc acc vs as2 = .ok w ∧
      (w.filter (fun f => f.dir == "data/music/mash") =
          [⟨"data/music/mash", output, Seg.mashBoard (Seg.overlay accStem vocStem)⟩] ∨
        w.filter (fun f => f.dir == "data/music/mash") =
          [⟨"data/music/mash", output, Seg.mashBoard (Seg.overlay vocStem accStem)⟩]) := by
  obtain ⟨s1, hs1⟩ := Option.isSome_iff_exists.mp hv1
  obtain ⟨s2, hs2⟩ := Option.isSome_iff_exists.mp hv2
  obtain ⟨t1, ht1⟩ := Option.isSome_iff_exists.mp ha1
  obtain ⟨t2, ht2⟩ := Option.isSome_iff_exists.mp ha2
  obtain ⟨stemV, hsv⟩ := Option.isSome_iff_exists.mp hvs
  obtain ⟨stemA, hsa⟩ := Option.isSome_iff_exists.mp has
  obtain ⟨shv, hshv⟩ := Option.isSome_iff_exists.mp hkv
  obtain ⟨sha, hsha⟩ := Option.isSome_iff_exists.mp hka
  have E1 : ∃ voc2 vocStem,
      createMashStem voc "VocMash" "Vocals" vs.1 vs.2 none none (some acc) =
        .ok (voc2, vocStem, [⟨"data/music/test", voc.title ++ "editR3.wav", vocStem⟩]) ∧
      voc2.key = voc.key :=
    ⟨_, _, createMashStem_target_ok voc acc "VocMash" "Vocals" vs.1 vs.2 s1 s2 stemV shv
      hs1 hs2 hsv hshv, rfl⟩
  obtain ⟨voc2, vocStem, e1, hkey⟩ := E1
  have hka2 : find_closest_key_shift acc.key voc2.key = some sha := by
    rw [hkey]
    exact hsha
  have E2 : ∃ acc2 accStem, createMashStem acc "AccMash" "Accompaniment" as2.1 as2.2
        none none (some voc2) =
      .ok (acc2, accStem, [⟨"data/music/test", acc.title ++ "editR3.wav", accStem⟩]) :=
    ⟨_, _, createMashStem_target_ok acc voc2 "AccMash" "Accompaniment" as2.1 as2.2
      t1 t2 stemA sha ht1 ht2 hsa hka2⟩
  obtain ⟨acc2, accStem, e2⟩ := E2
  refine ⟨voc2, acc2, vocStem, accStem,
    [⟨"data/music/test", voc.title ++ "editR3.wav", vocStem⟩],
    [⟨"data/music/test", acc.title ++ "editR3.wav", accStem⟩],
    [⟨"data/music/test", voc.title ++ "editR3.wav", vocStem⟩,
     ⟨"data/music/test", acc.title ++ "editR3.wav", accStem⟩,
     ⟨"data/music/mash", output, Seg.mashBoard (if accStem.dur < vocStem.dur then
        Seg.overlay accStem vocStem else Seg.overlay vocStem accStem)⟩],
    e1, e2, ?_, ?_⟩
  · simp only [masherMash, e1, e2]
    rfl
  · rcases lt_or_le accStem.dur vocStem.dur with hd | hd
    · left; rw [if_pos hd]; simp [List.filter]
    · right; rw [if_neg (not_lt.mpr hd)]; simp [List.filter]

theorem create_mash_stem_ratio_midpoint_witness :
    ∃ song2 w, createMashStem demoSong "New" "Vocals" 0 0 none none (some demoTarget) =
        .ok (song2, boardFor "Vocals" (Seg.rubber
          (Seg.slice demoStem (demoSection.start_time * 1000) (demoSection.end_time * 1000))
          (mash_bpm_update demoSong.bpm demoTarget.bpm).2 1), w) ∧
      song2.bpm = find_closest_bpm demoSong.bpm demoTarget.bpm ∧
      song2.bpm * (mash_bpm_update demoSong.bpm demoTarget.bpm).2 =
        (song2.bpm + demoTarget.bpm) / 2 :=
  create_mash_stem_ratio_midpoint demoSong demoTarget "New" "Vocals" 0 0
    demoSection demoSection demoStem 1 rfl rfl rfl
    (by rw [find_closest_key_shift_table]; decide)
    (by norm_num [demoSong]) (by norm_num [demoTarget])

theorem create_mash_stem_keyerror_iff_witness :
    ((∃ msg, createMashStem demoSong "New" "Vocals" 0 0 (some 1) (some 1) none =
        .raise (.keyError msg)) ↔ demoSong.stems.lookup "Vocals" = none) ∧
    (∀ msg, createMashStem demoSong "New" "Vocals" 0 0 (some 1) (some 1) none =
        .raise (.keyError msg) →
      msg = "No stem type of " ++ "Vocals" ++ " found in stems for " ++ demoSong.title) ∧
    (∀ song2 seg w, createMashStem demoSong "New" "Vocals" 0 0 (some 1) (some 1) none =
        .ok (song2, seg, w) → song2.stems = dictInsert demoSong.stems "New" seg) :=
  create_mash_stem_keyerror_iff demoSong "New" "Vocals" 0 0 (some 1) (some 1) none rfl rfl

theorem masher_mash_single_export_witness :
    ∃ voc2 acc2 vocStem accStem w1 w2 w,
      createMashStem demoSong "VocMash" "Vocals" 0 0 none none (some demoTarget) =
        .ok (voc2, vocStem, w1) ∧
      createMashStem demoTarget "AccMash" "Accompaniment" 0 0 none none (some voc2) =
        .ok (acc2, accStem, w2) ∧
      masherMash "Mash.wav" demoSong demoTarget (0, 0) (0, 0) = .ok w ∧
      (w.filter (fun f => f.dir == "data/music/mash") =
          [⟨"data/music/mash", "Mash.wav", Seg.mashBoard (Seg.overlay accStem vocStem)⟩] ∨
        w.filter (fun f => f.dir == "data/music/mash") =
          [⟨"data/music/mash", "Mash.wav", Seg.mashBoard (Seg.overlay vocStem accStem)⟩]) :=
  masher_mash_single_export "Mash.wav" demoSong demoTarget (0, 0) (0, 0)
    rfl rfl rfl rfl rfl rfl
    (by rw [find_closest_key_shift_table]; decide)
    (by rw [find_closest_key_shift_table]; decide)

theorem everyFourth_length {α : Type} : ∀ l : List α, (everyFourth l).length = (l.length + 3) / 4
  | [] => by simp [everyFourth]
  | [_] => by simp [everyFourth]
  | [_, _] => by simp [everyFourth]
  | [_, _, _] => by simp [everyFourth]
  | _ :: _ :: _ :: _ :: rest => by
    simp only [everyFourth, List.length_cons]
    rw [everyFourth_length rest]
    omega

theorem everyFourth_getElem? {α : Type} :
    ∀ (l : List α) (i : ℕ), (everyFourth l)[i]? = l[4 * i]?
  | [], i => by simp [everyFourth]
  | [a], i => by
    cases i with
    | zero => simp [everyFourth]
    | succ i =>
      have h4 : 4 * (i + 1) = 4 * i + 4 := by omega
      simp [everyFourth, h4]
  | [a, b], i => by
    cases i with
    | zero => simp [everyFourth]
    | succ i =>
      have h4 : 4 * (i + 1) = 4 * i + 4 := by omega
      simp [everyFourth, h4]
  | [a, b, c], i => by
    cases i with
    | zero => simp [everyFourth]
    | succ i =>
      have h4 : 4 * (i + 1) = 4 * i + 4 := by omega
      simp [everyFourth, h4]
  | a :: b :: c :: d :: rest, i => by
    cases i with
    | zero => simp [everyFourth]
    | succ i =>
      have h4 : 4 * (i + 1) = 4 * i + 1 + 1 + 1 + 1 := by omega
      simp only [everyFourth, h4, List.getElem?_cons_succ]
      exact everyFourth_getElem? rest i

theorem everyFourth_sublist {α : Type} : ∀ l : List α, List.Sublist (everyFourth l) l
  | [] => List.Sublist.refl _
  | [a] => List.Sublist.refl _
  | [a, b] => List.cons_sublist_cons.mpr (List.nil_sublist _)
  | [a, b, c] => List.cons_sublist_cons.mpr (List.nil_sublist _)
  | a :: b :: c :: d :: rest =>
    List.cons_sublist_cons.mpr
      ((everyFourth_sublist rest).trans
        ((List.sublist_cons_self d rest).trans
          ((List.sublist_cons_self c (d :: rest)).trans
            (List.sublist_cons_self b (c :: d :: rest)))))

/-- Claim C6: `bars_to_measures` keeps the start times of every fourth bar
(indices 0, 4, 8, ...); `MashSong.__init__` appends the track duration as the
final entry; the resulting array has `ceil(n/4) + 1` entries and is ascending
when the bar starts are ascending and below the duration. -/
theorem bars_to_measures_spec (bars : List Bar) (dur : ℚ) :
    (bars_to_measures bars).length = (bars.length + 3) / 4 ∧
    (∀ i : ℕ, (bars_to_measures bars)[i]? = (bars[4 * i]?).map Bar.start) ∧
    (songMeasures bars dur).length = (bars.length + 3) / 4 + 1 ∧
    ((bars.map Bar.start).Pairwise (· < ·) → (∀ b ∈ bars, b.start < dur) →
      (songMeasures bars dur).Pairwise (· < ·)) := by
  refine ⟨?_, ?_, ?_, ?_⟩
  · simp [bars_to_measures, everyFourth_length]
  · intro i
    simp only [bars_to_measures, List.getElem?_map, everyFourth_getElem?]
  · simp [songMeasures, bars_to_measures, everyFourth_length]
  · intro hsort hlt
    have hsub := everyFourth_sublist bars
    have hpw : (everyFourth bars).Pairwise (fun a b => a.start < b.start) :=
      (List.pairwise_map.mp hsort).sublist hsub
    rw [songMeasures, List.pairwise_append]
    refine ⟨List.pairwise_map.mpr hpw, List.pairwise_singleton _ _, ?_⟩
    intro x hx y hy
    rw [List.mem_singleton] at hy
    subst hy
    rw [bars_to_measures, List.mem_map] at hx
    obtain ⟨b, hb, hbx⟩ := hx
    subst hbx
    exact hlt b (hsub.subset hb)

theorem bars_to_measures_spec_witness :
    (songMeasures [⟨1⟩, ⟨2⟩, ⟨3⟩, ⟨4⟩, ⟨5⟩] 100).Pairwise (· < ·) :=
  (bars_to_measures_spec [⟨1⟩, ⟨2⟩, ⟨3⟩, ⟨4⟩, ⟨5⟩] 100).2.2.2 (by decide)
    (by intro b hb; fin_cases hb <;> norm_num)

theorem searchsortedLeft_le_length (l : List ℚ) (v : ℚ) :
    searchsortedLeft l v ≤ l.length := by
  induction l with
  | nil => simp [searchsortedLeft]
  | cons x xs ih =>
    rw [searchsortedLeft]
    split_ifs <;> simp <;> omega

theorem lt_of_getElem?_lt_searchsortedLeft {l : List ℚ} {v : ℚ} {i : ℕ}
    (h : i < searchsortedLeft l v) : ∃ x, l[i]? = some x ∧ x < v := by
  induction l generalizing i with
  | nil => simp [searchsortedLeft] at h
  | cons a t ih =>
    rw [searchsortedLeft] at h
    by_cases ha : a < v
    · rw [if_pos ha] at h
      cases i with
      | zero => exact ⟨a, by simp, ha⟩
      | succ i =>
        have h' : i < searchsortedLeft t v := by omega
        obtain ⟨x, hx, hxv⟩ := ih h'
        exact ⟨x, by simpa using hx, hxv⟩
    · rw [if_neg ha] at h
      omega

theorem le_of_searchsortedLeft_le {l : List ℚ} {v : ℚ} (hs : l.Pairwise (· < ·))
    {i : ℕ} {x : ℚ} (hge : searchsortedLeft l v ≤ i) (hx : l[i]? = some x) :
    v ≤ x := by
  induction l generalizing i with
  | nil => simp at hx
  | cons a t ih =>
    rw [searchsortedLeft] at hge
    obtain ⟨hat, hst⟩ := List.pairwise_cons.mp hs
    by_cases ha : a < v
    · rw [if_pos ha] at hge
      cases i with
      | zero => omega
      | succ i =>
        have h' : searchsortedLeft t v ≤ i := by omega
        exact ih hst h' (by simpa using hx)
    · rw [if_neg ha] at hge
      push_neg at ha
      cases i with
      | zero =>
        simp only [List.getElem?_cons_zero, Option.some.injEq] at hx
        exact hx ▸ ha
      | succ i =>
        have hx' : t[i]? = some x := by simpa using hx
        obtain ⟨hlt, hEq⟩ := List.getElem?_eq_some_iff.mp hx'
        have hmem : x ∈ t := hEq ▸ List.getElem_mem hlt
        exact ha.trans (hat x hmem).le

theorem sorted_le_of_index_le {l : List ℚ} (hs : l.Pairwise (· < ·))
    {i j : ℕ} {x y : ℚ} (hij : i ≤ j) (hi : l[i]? = some x) (hj : l[j]? = some y) :
    x ≤ y := by
  rcases eq_or_lt_of_le hij with rfl | hlt
  · rw [hi] at hj
    exact (Option.some_inj.mp hj).le
  · have hjl : j < l.length := (List.getElem?_eq_some_iff.mp hj).1
    have hil : i < l.length := by omega
    rw [List.getElem?_eq_getElem hil] at hi
    rw [List.getElem?_eq_getElem hjl] at hj
    have := List.pairwise_iff_getElem.mp hs i j hil hjl hlt
    rw [Option.some_inj.mp hi, Option.some_inj.mp hj] at this
    exact this.le

theorem pyGet_ofNat {α : Type} (l : List α) (n : ℕ) : pyGet l (n : ℤ) = l[n]? := by
  simp [pyGet]

/-- Evaluation rule for `syncToMeasure` once the two index `if`s and the three
`pyGet`s are resolved. -/
theorem syncToMeasure_eval (st0 du0 e0 : ℚ) (m : List ℚ) (lo hi st en : ℚ)
    (ei1 : ℤ)
    (hei1 : (if (m.length : ℤ) - 1 ≤ (searchsortedLeft m e0 : ℤ) - 1
        then (searchsortedLeft m e0 : ℤ) - 1 - 1
        else (searchsortedLeft m e0 : ℤ) - 1) = ei1)
    (hg1 : pyGet m ei1 = some lo) (hg2 : pyGet m (ei1 + 1) = some hi)
    (hg0 : pyGet m 0 = some st)
    (ei2 : ℤ)
    (hei2 : (if hi - e0 < e0 - lo then ei1 + 1 else ei1) = ei2)
    (hgE : pyGet m ei2 = some en) :
    syncToMeasure ⟨st0, du0, e0, m⟩ =
      some (⟨st, en - st, en, pySliceTo m ei2⟩, ei2) := by
  simp only [syncToMeasure]
  rw [hei1, hg1, hg2]
  simp only []
  rw [hei2, hgE, hg0]

/-- Evaluation rule for the older `syncToMeasureV1`. -/
theorem syncToMeasureV1_eval (st0 du0 e0 : ℚ) (m : List ℚ) (st en : ℚ)
    (hg0 : pyGet m 0 = some st)
    (hgE : pyGet m ((searchsortedLeft m e0 : ℤ) - 1) = some en) :
    syncToMeasureV1 ⟨st0, du0, e0, m⟩ =
      some (⟨st, en - st, en, pySliceTo m ((searchsortedLeft m e0 : ℤ) - 1)⟩,
        (searchsortedLeft m e0 : ℤ) - 1) := by
  simp only [syncToMeasureV1]
  rw [hg0, hgE]

/-- Claim C2: on a non-empty ascending measure array whose interior contains
`end_time`, `sync_to_measure` snaps `start_time` to the first measure,
`end_time` to the measure closest to the original `end_time`, and `duration`
to their difference. -/
theorem sync_to_measure_closest (s : SectionState)
    (hne : s.track_measures ≠ [])
    (hsort : s.track_measures.Pairwise (· < ·))
    (hlo : s.track_measures.head hne < s.end_time)
    (hhi : s.end_time < s.track_measures.getLast hne) :
    ∃ s2 ei, syncToMeasure s = some (s2, ei) ∧
      s2.start_time = s.track_measures.head hne ∧
      s2.end_time ∈ s.track_measures ∧
      (∀ x ∈ s.track_measures, |s2.end_time - s.end_time| ≤ |x - s.end_time|) ∧
      s2.duration = s2.end_time - s2.start_time := by
  obtain ⟨st0, du0, e0, m⟩ := s
  simp only at hne hlo hhi hsort ⊢
  have hlen : 1 ≤ m.length := List.length_pos.mpr hne
  have h0 : m[0]? = some (m.head hne) := by
    cases m with
    | nil => exact absurd rfl hne
    | cons a t => simp
  have hlast : m[m.length - 1]? = some (m.getLast hne) := by
    rw [List.getElem?_eq_getElem (by omega)]
    rw [List.getLast_eq_getElem]
  have hc1 : 1 ≤ searchsortedLeft m e0 := by
    rcases Nat.eq_zero_or_pos (searchsortedLeft m e0) with h0c | h
    · exfalso
      have hcontra : e0 ≤ m.head hne := le_of_searchsortedLeft_le hsort (by omega) h0
      exact absurd hlo (not_lt.mpr hcontra)
    · exact h
  have hc2 : searchsortedLeft m e0 ≤ m.length - 1 := by
    by_contra hcon
    push_neg at hcon
    have hcle := searchsortedLeft_le_length m e0
    obtain ⟨x, hx, hxv⟩ := lt_of_getElem?_lt_searchsortedLeft
      (show m.length - 1 < searchsortedLeft m e0 by omega)
    rw [hlast] at hx
    have hgl := Option.some_inj.mp hx
    rw [hgl] at hhi
    linarith
  have hlen2 : 2 ≤ m.length := by omega
  obtain ⟨lo, hlo2, hloe⟩ := lt_of_getElem?_lt_searchsortedLeft
    (show searchsortedLeft m e0 - 1 < searchsortedLeft m e0 by omega)
  have hhiv : searchsortedLeft m e0 < m.length := by omega
  have hhi2 : m[searchsortedLeft m e0]? = some m[searchsortedLeft m e0] :=
    List.getElem?_eq_getElem hhiv
  have hige : e0 ≤ m[searchsortedLeft m e0] :=
    le_of_searchsortedLeft_le hsort (le_refl _) hhi2
  have hg1 : pyGet m ((searchsortedLeft m e0 : ℤ) - 1) = some lo := by
    rw [show ((searchsortedLeft m e0 : ℤ) - 1) = ((searchsortedLeft m e0 - 1 : ℕ) : ℤ)
      by omega, pyGet_ofNat]
    exact hlo2
  have hg2 : pyGet m ((searchsortedLeft m e0 : ℤ) - 1 + 1) = some m[searchsortedLeft m e0] := by
    rw [show ((searchsortedLeft m e0 : ℤ) - 1 + 1) = ((searchsortedLeft m e0 : ℕ) : ℤ)
      by omega, pyGet_ofNat]
    exact hhi2
  have hg0 : pyGet m (0 : ℤ) = some (m.head hne) := by
    rw [show ((0 : ℤ)) = ((0 : ℕ) : ℤ) from rfl, pyGet_ofNat]
    exact h0
  have hguard : ¬ ((m.length : ℤ) - 1 ≤ (searchsortedLeft m e0 : ℤ) - 1) := by omega
  have hmemc : m[searchsortedLeft m e0] ∈ m := List.getElem_mem hhiv
  have hmemlo : lo ∈ m := by
    obtain ⟨hl, hEq⟩ := List.getElem?_eq_some_iff.mp hlo2
    exact hEq ▸ List.getElem_mem hl
  rcases lt_or_le (m[searchsortedLeft m e0] - e0) (e0 - lo) with hcmp | hcmp
  · have hstep : syncToMeasure ⟨st0, du0, e0, m⟩ =
        some (⟨m.head hne, m[searchsortedLeft m e0] - m.head hne,
          m[searchsortedLeft m e0], pySliceTo m ((searchsortedLeft m e0 : ℤ) - 1 + 1)⟩,
          (searchsortedLeft m e0 : ℤ) - 1 + 1) :=
      syncToMeasure_eval st0 du0 e0 m lo m[searchsortedLeft m e0] (m.head hne)
        m[searchsortedLeft m e0] ((searchsortedLeft m e0 : ℤ) - 1) (if_neg hguard)
        hg1 hg2 hg0 ((searchsortedLeft m e0 : ℤ) - 1 + 1) (if_pos hcmp) hg2
    refine ⟨_, _, hstep, rfl, hmemc, ?_, rfl⟩
    intro x hx
    obtain ⟨i, hxi⟩ := List.mem_iff_getElem?.mp hx
    simp only
    rcases le_or_lt (searchsortedLeft m e0) i with hci | hci
    · have hxc : m[searchsortedLeft m e0] ≤ x := sorted_le_of_index_le hsort hci hhi2 hxi
      rw [abs_of_nonneg (by linarith), abs_of_nonneg (by linarith)]
      linarith
    · have hxc : x ≤ lo := sorted_le_of_index_le hsort (by omega) hxi hlo2
      rw [abs_of_nonneg (by linarith), abs_of_nonpos (by linarith)]
      linarith
  · have hstep : syncToMeasure ⟨st0, du0, e0, m⟩ =
        some (⟨m.head hne, lo - m.head hne, lo,
          pySliceTo m ((searchsortedLeft m e0 : ℤ) - 1)⟩,
          (searchsortedLeft m e0 : ℤ) - 1) :=
      syncToMeasure_eval st0 du0 e0 m lo m[searchsortedLeft m e0] (m.head hne)
        lo ((searchsortedLeft m e0 : ℤ) - 1) (if_neg hguard)
        hg1 hg2 hg0 ((searchsortedLeft m e0 : ℤ) - 1) (if_neg (not_lt.mpr hcmp)) hg1
    refine ⟨_, _, hstep, rfl, hmemlo, ?_, rfl⟩
    intro x hx
    obtain ⟨i, hxi⟩ := List.mem_iff_getElem?.mp hx
    simp only
    rcases le_or_lt (searchsortedLeft m e0) i with hci | hci
    · have hxc : m[searchsortedLeft m e0] ≤ x := sorted_le_of_index_le hsort hci hhi2 hxi
      rw [abs_of_nonpos (by linarith), abs_of_nonneg (by linarith)]
      linarith
    · have hxc : x ≤ lo := sorted_le_of_index_le hsort (by omega) hxi hlo2
      rw [abs_of_nonpos (by linarith), abs_of_nonpos (by linarith)]
      linarith

theorem sync_to_measure_closest_witness :
    ∃ s2 ei, syncToMeasure ⟨1, 3, 4, [0, 3, 10]⟩ = some (s2, ei) ∧
      s2.start_time = ([0, 3, 10] : List ℚ).head (by simp) ∧
      s2.end_time ∈ ([0, 3, 10] : List ℚ) ∧
      (∀ x ∈ ([0, 3, 10] : List ℚ), |s2.end_time - 4| ≤ |x - 4|) ∧
      s2.duration = s2.end_time - s2.start_time :=
  sync_to_measure_closest ⟨1, 3, 4, [0, 3, 10]⟩ (by simp) (by decide) (by decide) (by decide)

theorem sync_to_measure_versions_differ :
    syncToMeasure ⟨0, 0, 19, [0, 10, 20]⟩ ≠ syncToMeasureV1 ⟨0, 0, 19, [0, 10, 20]⟩ := by
  have h2 : syncToMeasure ⟨0, 0, 19, [0, 10, 20]⟩ =
      some (⟨0, 20 - 0, 20, pySliceTo [0, 10, 20] 2⟩, 2) :=
    syncToMeasure_eval 0 0 19 [0, 10, 20] 10 20 0 20 1 (by decide) (by decide)
      (by decide) (by decide) 2 (by rw [if_pos (by norm_num : (20 : ℚ) - 19 < 19 - 10)]; decide)
      (by decide)
  have h1 : syncToMeasureV1 ⟨0, 0, 19, [0, 10, 20]⟩ =
      some (⟨0, 10 - 0, 10, pySliceTo [0, 10, 20] ((searchsortedLeft [0, 10, 20] 19 : ℤ) - 1)⟩,
        (searchsortedLeft [0, 10, 20] 19 : ℤ) - 1) :=
    syncToMeasureV1_eval 0 0 19 [0, 10, 20] 0 10 (by decide) (by decide)
  rw [h1, h2]
  intro hcon
  simp only [Option.some.injEq, Prod.mk.injEq] at hcon
  have := hcon.2
  rw [show searchsortedLeft [0, 10, 20] (19 : ℚ) = 2 from by decide] at this
  omega

theorem pyGet_negOne {α : Type} (l : List α) (hne : l ≠ []) :
    pyGet l (-1 : ℤ) = some (l.getLast hne) := by
  have hlen : 1 ≤ l.length := List.length_pos.mpr hne
  rw [pyGet, if_neg (by omega), if_pos (by omega)]
  rw [show (((l.length : ℤ) + -1).toNat) = l.length - 1 by omega]
  rw [List.getElem?_eq_getElem (by omega), List.getLast_eq_getElem]

theorem pyDeleteTo_ofNat {α : Type} (l : List α) (n : ℕ) :
    pyDeleteTo l (n : ℤ) = l.drop n := by
  simp [pyDeleteTo]

theorem pyDeleteTo_negOne {α : Type} (l : List α) :
    pyDeleteTo l (-1 : ℤ) = l.drop (l.length - 1) := by
  rw [pyDeleteTo, if_neg (by omega)]
  congr 1
  omega

theorem head_eq_getElem_zero (m : List ℚ) (hne : m ≠ []) (h0 : 0 < m.length) :
    m.head hne = m[0] := by
  cases m with
  | nil => exact absurd rfl hne
  | cons a t => rfl

theorem head_drop_spec (m : List ℚ) (j : ℕ) (hj : j < m.length) :
    ∃ hne2 : m.drop j ≠ [], (m.drop j).head hne2 = m[j] := by
  have hl : (m.drop j).length = m.length - j := List.length_drop j m
  have hne2 : m.drop j ≠ [] := by
    intro hcon
    rw [hcon] at hl
    simp at hl
    omega
  refine ⟨hne2, ?_⟩
  rw [head_eq_getElem_zero (m.drop j) hne2 (by rw [hl]; omega)]
  rw [List.getElem_drop]
  simp

/-- Common final step for `syncToMeasure_chain`: once the resolved first index
`ei1` reads measures at list positions `jLo` and `jHi`, the sync succeeds and
the deleted measure array starts at the synced `end_time`. -/
theorem syncToMeasure_chain_core (st0 du0 e0 : ℚ) (m : List ℚ) (hne : m ≠ [])
    (ei1 : ℤ) (jLo jHi : ℕ) (hjLo : jLo < m.length) (hjHi : jHi < m.length)
    (hei1 : (if (m.length : ℤ) - 1 ≤ (searchsortedLeft m e0 : ℤ) - 1
        then (searchsortedLeft m e0 : ℤ) - 1 - 1
        else (searchsortedLeft m e0 : ℤ) - 1) = ei1)
    (hg1 : pyGet m ei1 = some m[jLo])
    (hg2 : pyGet m (ei1 + 1) = some m[jHi])
    (hdLo : pyDeleteTo m ei1 = m.drop jLo)
    (hdHi : pyDeleteTo m (ei1 + 1) = m.drop jHi) :
    ∃ s2 ei, syncToMeasure ⟨st0, du0, e0, m⟩ = some (s2, ei) ∧
      s2.start_time = m.head hne ∧ s2.duration = s2.end_time - s2.start_time ∧
      ∃ hne2 : pyDeleteTo m ei ≠ [], (pyDeleteTo m ei).head hne2 = s2.end_time := by
  have hg0 : pyGet m (0 : ℤ) = some (m.head hne) := by
    rw [show ((0 : ℤ)) = ((0 : ℕ) : ℤ) from rfl, pyGet_ofNat]
    rw [List.getElem?_eq_getElem (by omega)]
    rw [head_eq_getElem_zero m hne (by omega)]
  rcases lt_or_le (m[jHi] - e0) (e0 - m[jLo]) with hcmp | hcmp
  · have heval := syncToMeasure_eval st0 du0 e0 m m[jLo] m[jHi] (m.head hne) m[jHi]
      ei1 hei1 hg1 hg2 hg0 (ei1 + 1) (if_pos hcmp) hg2
    refine ⟨_, _, heval, rfl, rfl, ?_⟩
    rw [hdHi]
    obtain ⟨hne2, hh⟩ := head_drop_spec m jHi hjHi
    exact ⟨hne2, hh⟩
  · have heval := syncToMeasure_eval st0 du0 e0 m m[jLo] m[jHi] (m.head hne) m[jLo]
      ei1 hei1 hg1 hg2 hg0 ei1 (if_neg (not_lt.mpr hcmp)) hg1
    refine ⟨_, _, heval, rfl, rfl, ?_⟩
    rw [hdLo]
    obtain ⟨hne2, hh⟩ := head_drop_spec m jLo hjLo
    exact ⟨hne2, hh⟩

/-- For any non-empty measure array, `sync_to_measure` succeeds, keeps
`start_time` at the first measure, sets `duration = end_time - start_time`,
and the measure array left after `np.delete` starts exactly at the synced
`end_time`. -/
theorem syncToMeasure_chain (st0 du0 e0 : ℚ) (m : List ℚ) (hne : m ≠ []) :
    ∃ s2 ei, syncToMeasure ⟨st0, du0, e0, m⟩ = some (s2, ei) ∧
      s2.start_time = m.head hne ∧ s2.duration = s2.end_time - s2.start_time ∧
      ∃ hne2 : pyDeleteTo m ei ≠ [], (pyDeleteTo m ei).head hne2 = s2.end_time := by
  have hlen : 1 ≤ m.length := List.length_pos.mpr hne
  have hclen : searchsortedLeft m e0 ≤ m.length := searchsortedLeft_le_length m e0
  have hg00 : pyGet m ((0 : ℕ) : ℤ) = some m[0] := by
    rw [pyGet_ofNat, List.getElem?_eq_getElem (by omega)]
  by_cases hA : (m.length : ℤ) - 1 ≤ (searchsortedLeft m e0 : ℤ) - 1
  · have hcn : searchsortedLeft m e0 = m.length := by omega
    by_cases hn1 : m.length = 1
    · refine syncToMeasure_chain_core st0 du0 e0 m hne (-1) 0 0 (by omega) (by omega)
        (by rw [if_pos hA]; omega) ?_
        (by rw [show ((-1 : ℤ) + 1) = ((0 : ℕ) : ℤ) by norm_num]; exact hg00) ?_
        (by rw [show ((-1 : ℤ) + 1) = ((0 : ℕ) : ℤ) by norm_num]
            exact pyDeleteTo_ofNat m 0)
      · rw [pyGet_negOne m hne, List.getLast_eq_getElem]
        simp [hn1]
      · rw [pyDeleteTo_negOne]
        simp [hn1]
    · have hn2 : 2 ≤ m.length := by omega
      refine syncToMeasure_chain_core st0 du0 e0 m hne ((m.length - 2 : ℕ) : ℤ)
        (m.length - 2) (m.length - 1) (by omega) (by omega)
        (by rw [if_pos hA]; omega) ?_ ?_ (pyDeleteTo_ofNat m (m.length - 2)) ?_
      · rw [pyGet_ofNat, List.getElem?_eq_getElem (by omega)]
      · rw [show (((m.length - 2 : ℕ) : ℤ) + 1) = ((m.length - 1 : ℕ) : ℤ) by omega]
        rw [pyGet_ofNat, List.getElem?_eq_getElem (by omega)]
      · rw [show (((m.length - 2 : ℕ) : ℤ) + 1) = ((m.length - 1 : ℕ) : ℤ) by omega]
        exact pyDeleteTo_ofNat m (m.length - 1)
  · by_cases hc0 : searchsortedLeft m e0 = 0
    · refine syncToMeasure_chain_core st0 du0 e0 m hne (-1) (m.length - 1) 0
        (by omega) (by omega) (by rw [if_neg hA]; omega) ?_
        (by rw [show ((-1 : ℤ) + 1) = ((0 : ℕ) : ℤ) by norm_num]; exact hg00)
        (pyDeleteTo_negOne m)
        (by rw [show ((-1 : ℤ) + 1) = ((0 : ℕ) : ℤ) by norm_num]
            exact pyDeleteTo_ofNat m 0)
      · rw [pyGet_negOne m hne, List.getLast_eq_getElem]
    · have hc1 : 1 ≤ searchsortedLeft m e0 := by omega
      have hcn : searchsortedLeft m e0 < m.length := by omega
      refine syncToMeasure_chain_core st0 du0 e0 m hne
        ((searchsortedLeft m e0 - 1 : ℕ) : ℤ)
        (searchsortedLeft m e0 - 1) (searchsortedLeft m e0) (by omega) (by omega)
        (by rw [if_neg hA]; omega) ?_ ?_
        (pyDeleteTo_ofNat m (searchsortedLeft m e0 - 1)) ?_
      · rw [pyGet_ofNat, List.getElem?_eq_getElem (by omega)]
      · rw [show (((searchsortedLeft m e0 - 1 : ℕ) : ℤ) + 1) =
          ((searchsortedLeft m e0 : ℕ) : ℤ) by omega]
        rw [pyGet_ofNat, List.getElem?_eq_getElem (by omega)]
      · rw [show (((searchsortedLeft m e0 - 1 : ℕ) : ℤ) + 1) =
          ((searchsortedLeft m e0 : ℕ) : ℤ) by omega]
        exact pyDeleteTo_ofNat m (searchsortedLeft m e0)

theorem syncSectionsGo_spec : ∀ (secs : List SectionState) (ms : List ℚ) (hms : ms ≠ []),
    ∃ out, syncSectionsGo ms secs = some out ∧
      List.Chain' (fun a b => a.end_time = b.start_time) out ∧
      (∀ s2 ∈ out, s2.end_time = s2.start_time + s2.duration) ∧
      ∀ hout : out ≠ [], (out.head hout).start_time = ms.head hms
  | [], ms, hms => ⟨[], rfl, by simp, by simp, fun hout => absurd rfl hout⟩
  | s :: rest, ms, hms => by
    obtain ⟨stt, dur, ent, tm⟩ := s
    obtain ⟨s2, ei, heval, hstart, hdur, hne2, hhead⟩ :=
      syncToMeasure_chain stt dur ent ms hms
    obtain ⟨out2, hgo, hchain, hend, hfirst⟩ :=
      syncSectionsGo_spec rest (pyDeleteTo ms ei) hne2
    refine ⟨s2 :: out2, ?_, ?_, ?_, ?_⟩
    · simp only [syncSectionsGo]
      rw [heval]
      simp only []
      rw [hgo]
    · rcases out2 with _ | ⟨b, out3⟩
      · simp
      · refine List.Chain'.cons ?_ hchain
        have hb := hfirst (by simp)
        rw [hhead] at hb
        exact hb.symm
    · intro x hx
      rcases List.mem_cons.mp hx with rfl | hx2
      · linarith [hdur]
      · exact hend x hx2
    · intro hout
      simpa using hstart

/-- Claim C8: after `sync_sections_to_measures`, consecutive sections abut
(`sections[i+1].start_time = sections[i].end_time`) and every synced section
satisfies `end_time = start_time + duration`. -/
theorem sync_sections_tile_measures (ms : List ℚ) (secs : List SectionState)
    (hms : ms ≠ []) (hsort : ms.Pairwise (· < ·)) (hsecs : secs ≠ []) :
    ∃ out, syncSectionsGo ms secs = some out ∧
      List.Chain' (fun a b => a.end_time = b.start_time) out ∧
      ∀ s2 ∈ out, s2.end_time = s2.start_time + s2.duration := by
  obtain ⟨out, hgo, hchain, hend, -⟩ := syncSectionsGo_spec secs ms hms
  exact ⟨out, hgo, hchain, hend⟩

theorem sync_sections_tile_measures_witness :
    ∃ out, syncSectionsGo [0, 10, 20] [⟨0, 4, 4, []⟩, ⟨4, 14, 18, []⟩] = some out ∧
      List.Chain' (fun a b => a.end_time = b.start_time) out ∧
      ∀ s2 ∈ out, s2.end_time = s2.start_time + s2.duration :=
  sync_sections_tile_measures [0, 10, 20] [⟨0, 4, 4, []⟩, ⟨4, 14, 18, []⟩]
    (by simp) (by decide) (by simp)

/-- Claim C10 (amended): the two `sync_to_measure` generations agree exactly
when the new version's bounds guard is idle and the measure below `end_time`
is at least as close as the measure above it. -/
theorem sync_to_measure_versions_agree (s : SectionState)
    (hne : s.track_measures ≠ [])
    (hguard : (searchsortedLeft s.track_measures s.end_time : ℤ) - 1 <
      (s.track_measures.length : ℤ) - 1)
    (hclose : ∀ lo hi : ℚ,
      pyGet s.track_measures ((searchsortedLeft s.track_measures s.end_time : ℤ) - 1) =
        some lo →
      pyGet s.track_measures ((searchsortedLeft s.track_measures s.end_time : ℤ) - 1 + 1) =
        some hi →
      s.end_time - lo ≤ hi - s.end_time) :
    syncToMeasure s = syncToMeasureV1 s := by
  obtain ⟨st0, du0, e0, m⟩ := s
  simp only at hne hguard hclose ⊢
  have hlen : 1 ≤ m.length := List.length_pos.mpr hne
  have hg0 : pyGet m (0 : ℤ) = some (m.head hne) := by
    rw [show ((0 : ℤ)) = ((0 : ℕ) : ℤ) from rfl, pyGet_ofNat]
    rw [List.getElem?_eq_getElem (by omega)]
    rw [head_eq_getElem_zero m hne (by omega)]
  rcases Nat.eq_zero_or_pos (searchsortedLeft m e0) with hc0 | hc1
  · have hi1 : ((searchsortedLeft m e0 : ℤ) - 1) = -1 := by omega
    have hglo : pyGet m (-1 : ℤ) = some (m.getLast hne) := pyGet_negOne m hne
    have hghi : pyGet m ((-1 : ℤ) + 1) = some (m.head hne) := by
      rw [show ((-1 : ℤ) + 1) = (0 : ℤ) by norm_num]
      exact hg0
    have hcmp := hclose (m.getLast hne) (m.head hne)
      (by rw [hi1]; exact hglo) (by rw [hi1]; exact hghi)
    have h2 := syncToMeasure_eval st0 du0 e0 m (m.getLast hne) (m.head hne)
      (m.head hne) (m.getLast hne) (-1)
      (by rw [if_neg (by omega), hi1]) hglo hghi hg0 (-1)
      (if_neg (not_lt.mpr hcmp)) hglo
    have h1 := syncToMeasureV1_eval st0 du0 e0 m (m.head hne) (m.getLast hne)
      hg0 (by rw [hi1]; exact hglo)
    rw [h1, h2, hi1]
  · have hcn : searchsortedLeft m e0 < m.length := by omega
    have hb1 : searchsortedLeft m e0 - 1 < m.length := by omega
    have hg1 : pyGet m ((searchsortedLeft m e0 : ℤ) - 1) =
        some m[searchsortedLeft m e0 - 1] := by
      rw [show ((searchsortedLeft m e0 : ℤ) - 1) = ((searchsortedLeft m e0 - 1 : ℕ) : ℤ)
        by omega, pyGet_ofNat]
      rw [List.getElem?_eq_getElem (by omega)]
    have hg2 : pyGet m ((searchsortedLeft m e0 : ℤ) - 1 + 1) =
        some m[searchsortedLeft m e0] := by
      rw [show ((searchsortedLeft m e0 : ℤ) - 1 + 1) = ((searchsortedLeft m e0 : ℕ) : ℤ)
        by omega, pyGet_ofNat]
      rw [List.getElem?_eq_getElem (by omega)]
    have hcmp := hclose m[searchsortedLeft m e0 - 1] m[searchsortedLeft m e0] hg1 hg2
    have h2 := syncToMeasure_eval st0 du0 e0 m m[searchsortedLeft m e0 - 1]
      m[searchsortedLeft m e0] (m.head hne) m[searchsortedLeft m e0 - 1]
      ((searchsortedLeft m e0 : ℤ) - 1) (by rw [if_neg (by omega)]) hg1 hg2 hg0
      ((searchsortedLeft m e0 : ℤ) - 1) (if_neg (not_lt.mpr hcmp)) hg1
    have h1 := syncToMeasureV1_eval st0 du0 e0 m (m.head hne)
      m[searchsortedLeft m e0 - 1] hg0 hg1
    rw [h1, h2]

theorem sync_to_measure_versions_agree_witness :
    syncToMeasure ⟨0, 0, 1, [0, 2, 5]⟩ = syncToMeasureV1 ⟨0, 0, 1, [0, 2, 5]⟩ :=
  sync_to_measure_versions_agree ⟨0, 0, 1, [0, 2, 5]⟩ (by simp) (by decide)
    (by
      intro lo hi h1 h2
      rw [show ((searchsortedLeft ([0, 2, 5] : List ℚ) 1 : ℤ) - 1) = (0 : ℤ) from
        by decide] at h1
      rw [show ((searchsortedLeft ([0, 2, 5] : List ℚ) 1 : ℤ) - 1 + 1) = (1 : ℤ) from
        by decide] at h2
      rw [show pyGet ([0, 2, 5] : List ℚ) 0 = some 0 from rfl] at h1
      rw [show pyGet ([0, 2, 5] : List ℚ) 1 = some 2 from rfl] at h2
      rw [← Option.some_inj.mp h1, ← Option.some_inj.mp h2]
      norm_num)
